import Mathlib

/-!
Verification of the memory-planning core of the oneDNN graph backend
(`src/backend/dnnl/passes/memory_planning.hpp`).

The shallow embedding below translates the `buffer_assigner_t` slot
allocator, the `memory_planner_t::get_memory_info` diagnostic, and (from the
design document, because its implementation file is not part of the excerpt)
`execution_args_set_t::clone` into Lean, and proves the specified properties
about them.

Modelling conventions:
* `size_t` values are modelled as `Nat`; the sentinel `(size_t)(-1)` "no
  buffer" id is modelled as `Option.none`, so `request` returns `Option Nat`.
* the `std::multimap<size_t, buffer_info_t *> free_` is modelled as a list of
  `(key, slot id)` pairs kept sorted by key with equal keys in insertion
  order, exactly the iteration order of the multimap; `lower_bound`,
  `upper_bound`, iterator erase and insert are modelled positionally.
* the `buffer_info_t *` pointers stored in the multimap and owned by `data_`
  are modelled as indices into the `data_` vector.
* the fatal `assertm` checks are modelled by returning `Option.none` from the
  operation (`release` / `query_size`) whose precondition was violated.
-/

namespace dnnl_impl

/-- Slot metadata (`buffer_info_t` in memory_planning.hpp): the id of the
buffer and the maximum size ever requested for it. -/
structure buffer_info_t where
  id_ : Nat
  max_bytes_ : Nat
deriving Repr, DecidableEq

/-- State of `buffer_assigner_t`: match range, free list (the multimap,
as a key-sorted list of `(max size at release, id)` pairs) and the vector of
all allocated slots. -/
structure buffer_assigner_t where
  match_range_ : Nat
  free_ : List (Nat × Nat)
  data_ : List buffer_info_t
deriving Repr, DecidableEq

/-- `std::multimap::lower_bound` on the key-sorted free list: position of the
first entry whose key is not less than `k`. -/
def lower_bound : List (Nat × Nat) → Nat → Nat
  | [], _ => 0
  | p :: rest, k => if p.1 < k then lower_bound rest k + 1 else 0

/-- `std::multimap::upper_bound`: position of the first entry whose key is
greater than `k`. -/
def upper_bound : List (Nat × Nat) → Nat → Nat
  | [], _ => 0
  | p :: rest, k => if p.1 ≤ k then upper_bound rest k + 1 else 0

/-- `std::multimap::insert`: a new entry is placed after every entry whose
key is less than or equal to its own (insertion order among equal keys). -/
def mmInsert : List (Nat × Nat) → Nat × Nat → List (Nat × Nat)
  | [], p => [p]
  | q :: rest, p => if p.1 < q.1 then p :: q :: rest else q :: mmInsert rest p

/-- The in-place update `e->max_bytes_ = std::max(size, e->max_bytes_)`
performed through the pointer stored in the free list, modelled on the
owning vector `data_` at the pointed-to index. -/
def updateMax (data : List buffer_info_t) (id size : Nat) : List buffer_info_t :=
  match data[id]? with
  | some bi => data.set id ⟨bi.id_, max size bi.max_bytes_⟩
  | none => data

/-- `buffer_assigner_t::alloc`: append a fresh slot whose id is the current
length of `data_` and return that id. -/
def alloc (st : buffer_assigner_t) (size : Nat) : Nat × buffer_assigner_t :=
  (st.data_.length,
    { st with data_ := st.data_ ++ [⟨st.data_.length, size⟩] })

/-- `buffer_assigner_t::request`: sentinel for size 0; fresh slot when the
match range is 0; otherwise scan the free list ascending from
`lower_bound(size)` to `upper_bound(size * match_range_)`, then descending
from `lower_bound(size)` down to `lower_bound(size / match_range_)`, taking
the first entry found (updating its recorded max size and erasing it);
allocate a fresh slot if both scans are empty. -/
def request (st : buffer_assigner_t) (size : Nat) : Option Nat × buffer_assigner_t :=
  if size = 0 then (none, st)
  else if st.match_range_ = 0 then
    (some (alloc st size).1, (alloc st size).2)
  else if lower_bound st.free_ size ≠ upper_bound st.free_ (size * st.match_range_) then
    (some (st.free_.getD (lower_bound st.free_ size) (0, 0)).2,
      { st with
        free_ := st.free_.eraseIdx (lower_bound st.free_ size)
        data_ := updateMax st.data_
          (st.free_.getD (lower_bound st.free_ size) (0, 0)).2 size })
  else if lower_bound st.free_ size ≠ lower_bound st.free_ (size / st.match_range_) then
    (some (st.free_.getD (lower_bound st.free_ size - 1) (0, 0)).2,
      { st with
        free_ := st.free_.eraseIdx (lower_bound st.free_ size - 1)
        data_ := updateMax st.data_
          (st.free_.getD (lower_bound st.free_ size - 1) (0, 0)).2 size })
  else (some (alloc st size).1, (alloc st size).2)

/-- `buffer_assigner_t::release`: the sentinel id is a no-op; a valid id is
inserted into the free list keyed by its current `max_bytes_`; an out-of-range
id fails the `assertm(id < data_.size() || id == (size_t)-1)` check,
modelled as `none`. -/
def release (st : buffer_assigner_t) (id : Option Nat) : Option buffer_assigner_t :=
  match id with
  | none => some st
  | some i =>
    match st.data_[i]? with
    | some bi => some { st with free_ := mmInsert st.free_ (bi.max_bytes_, i) }
    | none => none

/-- `buffer_assigner_t::query_size`: 0 for the sentinel, the recorded
`max_bytes_` for a valid id, assertion failure (`none`) otherwise. -/
def query_size (st : buffer_assigner_t) (id : Option Nat) : Option Nat :=
  match id with
  | none => some 0
  | some i =>
    match st.data_[i]? with
    | some bi => some bi.max_bytes_
    | none => none

/-- The multimap invariant on the modelled free list: keys are sorted in
nondecreasing order. -/
def sortedFree (l : List (Nat × Nat)) : Prop :=
  l.Pairwise (fun p q => p.1 ≤ q.1)

instance (l : List (Nat × Nat)) : Decidable (sortedFree l) := by
  unfold sortedFree; infer_instance

/-! ### Positional facts about `lower_bound` / `upper_bound` -/

theorem lower_bound_le_length (l : List (Nat × Nat)) (k : Nat) :
    lower_bound l k ≤ l.length := by
  induction l with
  | nil => simp [lower_bound]
  | cons p rest ih =>
    simp only [lower_bound, List.length_cons]
    split <;> omega

theorem upper_bound_le_length (l : List (Nat × Nat)) (k : Nat) :
    upper_bound l k ≤ l.length := by
  induction l with
  | nil => simp [upper_bound]
  | cons p rest ih =>
    simp only [upper_bound, List.length_cons]
    split <;> omega

theorem getD_mem {α : Type} : ∀ (l : List α) (i : Nat) (d : α),
    i < l.length → l.getD i d ∈ l := by
  intro l
  induction l with
  | nil => intro i d h; simp at h
  | cons a rest ih =>
    intro i d h
    cases i with
    | zero => simp
    | succ j =>
      simp only [List.getD_cons_succ]
      exact List.mem_cons_of_mem a (ih j d (by simpa using h))

theorem exists_getD_of_mem {α : Type} : ∀ (l : List α) (p d : α),
    p ∈ l → ∃ i, i < l.length ∧ l.getD i d = p := by
  intro l
  induction l with
  | nil => intro p d h; simp at h
  | cons a rest ih =>
    intro p d h
    rcases List.mem_cons.mp h with h | h
    · exact ⟨0, by simp, by simp [h]⟩
    · obtain ⟨i, hi, hget⟩ := ih p d h
      exact ⟨i + 1, by simpa using hi, by simpa using hget⟩

theorem lt_lower_bound_key :
    ∀ (l : List (Nat × Nat)) (k i : Nat) (d : Nat × Nat),
      i < lower_bound l k → (l.getD i d).1 < k := by
  intro l
  induction l with
  | nil => intro k i d h; simp [lower_bound] at h
  | cons p rest ih =>
    intro k i d h
    simp only [lower_bound] at h
    by_cases hp : p.1 < k
    · rw [if_pos hp] at h
      cases i with
      | zero => simpa using hp
      | succ j =>
        simp only [List.getD_cons_succ]
        exact ih k j d (by omega)
    · rw [if_neg hp] at h; omega

theorem lt_upper_bound_key :
    ∀ (l : List (Nat × Nat)) (k i : Nat) (d : Nat × Nat),
      i < upper_bound l k → (l.getD i d).1 ≤ k := by
  intro l
  induction l with
  | nil => intro k i d h; simp [upper_bound] at h
  | cons p rest ih =>
    intro k i d h
    simp only [upper_bound] at h
    by_cases hp : p.1 ≤ k
    · rw [if_pos hp] at h
      cases i with
      | zero => simpa using hp
      | succ j =>
        simp only [List.getD_cons_succ]
        exact ih k j d (by omega)
    · rw [if_neg hp] at h; omega

theorem le_key_of_lower_bound_le :
    ∀ (l : List (Nat × Nat)) (k i : Nat) (d : Nat × Nat),
      sortedFree l → lower_bound l k ≤ i → i < l.length →
      k ≤ (l.getD i d).1 := by
  intro l
  induction l with
  | nil => intro k i d _ _ h; simp at h
  | cons p rest ih =>
    intro k i d hsort hlb hlen
    obtain ⟨hhead, hrest⟩ := List.pairwise_cons.mp hsort
    simp only [lower_bound] at hlb
    by_cases hp : p.1 < k
    · rw [if_pos hp] at hlb
      cases i with
      | zero => omega
      | succ j =>
        simp only [List.getD_cons_succ]
        exact ih k j d hrest (by omega) (by simpa using hlen)
    · cases i with
      | zero => simpa using Nat.le_of_not_lt hp
      | succ j =>
        simp only [List.getD_cons_succ]
        have hmem : rest.getD j d ∈ rest := getD_mem rest j d (by simpa using hlen)
        exact Nat.le_trans (Nat.le_of_not_lt hp) (hhead _ hmem)

theorem lt_key_of_upper_bound_le :
    ∀ (l : List (Nat × Nat)) (k i : Nat) (d : Nat × Nat),
      sortedFree l → upper_bound l k ≤ i → i < l.length →
      k < (l.getD i d).1 := by
  intro l
  induction l with
  | nil => intro k i d _ _ h; simp at h
  | cons p rest ih =>
    intro k i d hsort hub hlen
    obtain ⟨hhead, hrest⟩ := List.pairwise_cons.mp hsort
    simp only [upper_bound] at hub
    by_cases hp : p.1 ≤ k
    · rw [if_pos hp] at hub
      cases i with
      | zero => omega
      | succ j =>
        simp only [List.getD_cons_succ]
        exact ih k j d hrest (by omega) (by simpa using hlen)
    · cases i with
      | zero => simpa using Nat.lt_of_not_le hp
      | succ j =>
        simp only [List.getD_cons_succ]
        have hmem : rest.getD j d ∈ rest := getD_mem rest j d (by simpa using hlen)
        exact Nat.lt_of_lt_of_le (Nat.lt_of_not_le hp) (hhead _ hmem)

theorem lower_bound_le_upper_bound (l : List (Nat × Nat)) (k k2 : Nat)
    (h : k ≤ k2) : lower_bound l k ≤ upper_bound l k2 := by
  induction l with
  | nil => simp [lower_bound, upper_bound]
  | cons p rest ih =>
    simp only [lower_bound, upper_bound]
    by_cases hp : p.1 < k
    · rw [if_pos hp, if_pos (by omega)]; omega
    · rw [if_neg hp]; omega

theorem lower_bound_mono (l : List (Nat × Nat)) (k k2 : Nat)
    (h : k ≤ k2) : lower_bound l k ≤ lower_bound l k2 := by
  induction l with
  | nil => simp [lower_bound]
  | cons p rest ih =>
    simp only [lower_bound]
    by_cases hp : p.1 < k
    · rw [if_pos hp, if_pos (by omega)]; omega
    · rw [if_neg hp]; omega

theorem sorted_getD_mono :
    ∀ (l : List (Nat × Nat)) (i j : Nat) (d : Nat × Nat),
      sortedFree l → i ≤ j → j < l.length →
      (l.getD i d).1 ≤ (l.getD j d).1 := by
  intro l
  induction l with
  | nil => intro i j d _ _ h; simp at h
  | cons p rest ih =>
    intro i j d hsort hij hlen
    obtain ⟨hhead, hrest⟩ := List.pairwise_cons.mp hsort
    cases i with
    | zero =>
      cases j with
      | zero => simp
      | succ j2 =>
        simp only [List.getD_cons_zero, List.getD_cons_succ]
        exact hhead _ (getD_mem rest j2 d (by simpa using hlen))
    | succ i2 =>
      cases j with
      | zero => omega
      | succ j2 =>
        simp only [List.getD_cons_succ]
        exact ih i2 j2 d hrest (by omega) (by simpa using hlen)

/-! ### Branch equations for `request` -/

theorem request_eq_sentinel (st : buffer_assigner_t) (s : Nat) (h : s = 0) :
    request st s = (none, st) := by
  simp [request, h]

theorem request_eq_alloc_of_range_zero (st : buffer_assigner_t) (s : Nat)
    (hs : s ≠ 0) (hR : st.match_range_ = 0) :
    request st s = (some (alloc st s).1, (alloc st s).2) := by
  simp only [request]
  rw [if_neg hs, if_pos hR]

theorem request_eq_reuse_high (st : buffer_assigner_t) (s : Nat)
    (hs : s ≠ 0) (hR : st.match_range_ ≠ 0)
    (hme : lower_bound st.free_ s ≠ upper_bound st.free_ (s * st.match_range_)) :
    request st s =
      (some (st.free_.getD (lower_bound st.free_ s) (0, 0)).2,
        { st with
          free_ := st.free_.eraseIdx (lower_bound st.free_ s)
          data_ := updateMax st.data_
            (st.free_.getD (lower_bound st.free_ s) (0, 0)).2 s }) := by
  simp only [request]
  rw [if_neg hs, if_neg hR, if_pos hme]

theorem request_eq_reuse_low (st : buffer_assigner_t) (s : Nat)
    (hs : s ≠ 0) (hR : st.match_range_ ≠ 0)
    (hme : lower_bound st.free_ s = upper_bound st.free_ (s * st.match_range_))
    (hmb : lower_bound st.free_ s ≠ lower_bound st.free_ (s / st.match_range_)) :
    request st s =
      (some (st.free_.getD (lower_bound st.free_ s - 1) (0, 0)).2,
        { st with
          free_ := st.free_.eraseIdx (lower_bound st.free_ s - 1)
          data_ := updateMax st.data_
            (st.free_.getD (lower_bound st.free_ s - 1) (0, 0)).2 s }) := by
  simp only [request]
  rw [if_neg hs, if_neg hR, if_neg (not_not_intro hme), if_pos hmb]

theorem request_eq_fresh (st : buffer_assigner_t) (s : Nat)
    (hs : s ≠ 0) (hR : st.match_range_ ≠ 0)
    (hme : lower_bound st.free_ s = upper_bound st.free_ (s * st.match_range_))
    (hmb : lower_bound st.free_ s = lower_bound st.free_ (s / st.match_range_)) :
    request st s = (some (alloc st s).1, (alloc st s).2) := by
  simp only [request]
  rw [if_neg hs, if_neg hR, if_neg (not_not_intro hme), if_neg (not_not_intro hmb)]

/-- `s ≤ s * R` whenever the match range `R` is nonzero. -/
theorem le_mul_match_range (s R : Nat) (hR : R ≠ 0) : s ≤ s * R := by
  have h1 : 1 ≤ R := Nat.one_le_iff_ne_zero.mpr hR
  calc s = s * 1 := (Nat.mul_one s).symm
    _ ≤ s * R := Nat.mul_le_mul_left s h1

/-- Exhaustive description of `request`: it either returns the sentinel
(size 0), allocates a fresh slot with the next consecutive id, or erases one
entry of the free list and returns its id after growing its recorded size. -/
theorem request_cases (st : buffer_assigner_t) (s : Nat) :
    (s = 0 ∧ request st s = (none, st)) ∨
    ((request st s).1 = some st.data_.length ∧
      (request st s).2 =
        { st with data_ := st.data_ ++ [⟨st.data_.length, s⟩] }) ∨
    (∃ j, j < st.free_.length ∧
      (request st s).1 = some (st.free_.getD j (0, 0)).2 ∧
      (request st s).2 =
        { st with
          free_ := st.free_.eraseIdx j
          data_ := updateMax st.data_ (st.free_.getD j (0, 0)).2 s }) := by
  by_cases hs : s = 0
  · exact Or.inl ⟨hs, request_eq_sentinel st s hs⟩
  by_cases hR : st.match_range_ = 0
  · refine Or.inr (Or.inl ?_)
    rw [request_eq_alloc_of_range_zero st s hs hR]
    simp [alloc]
  have hse : s ≤ s * st.match_range_ := le_mul_match_range s st.match_range_ hR
  have hme0 : lower_bound st.free_ s ≤ upper_bound st.free_ (s * st.match_range_) :=
    lower_bound_le_upper_bound st.free_ s (s * st.match_range_) hse
  have hbm0 : lower_bound st.free_ (s / st.match_range_) ≤ lower_bound st.free_ s :=
    lower_bound_mono st.free_ (s / st.match_range_) s (Nat.div_le_self s st.match_range_)
  by_cases hme : lower_bound st.free_ s = upper_bound st.free_ (s * st.match_range_)
  · by_cases hmb : lower_bound st.free_ s = lower_bound st.free_ (s / st.match_range_)
    · refine Or.inr (Or.inl ?_)
      rw [request_eq_fresh st s hs hR hme hmb]
      simp [alloc]
    · refine Or.inr (Or.inr ⟨lower_bound st.free_ s - 1, ?_, ?_, ?_⟩)
      · have := lower_bound_le_length st.free_ s
        omega
      · rw [request_eq_reuse_low st s hs hR hme hmb]
      · rw [request_eq_reuse_low st s hs hR hme hmb]
  · refine Or.inr (Or.inr ⟨lower_bound st.free_ s, ?_, ?_, ?_⟩)
    · have := upper_bound_le_length st.free_ (s * st.match_range_)
      omega
    · rw [request_eq_reuse_high st s hs hR hme]
    · rw [request_eq_reuse_high st s hs hR hme]

/-! ### Claim C1: the tolerance-window search of `request` -/

/-- A free-list entry whose recorded size lies in the upper part `[s, s * R]`
of the tolerance window. -/
abbrev eligibleHigh (s R : Nat) (p : Nat × Nat) : Prop :=
  s ≤ p.1 ∧ p.1 ≤ s * R

/-- A free-list entry whose recorded size lies in the lower part `[s / R, s)`
of the tolerance window. -/
abbrev eligibleLow (s R : Nat) (p : Nat × Nat) : Prop :=
  s / R ≤ p.1 ∧ p.1 < s

/-- Formal statement of claim C1, proved of `request` by
`request_tolerance_window`: with match range 0 a fresh slot is allocated
unconditionally; otherwise the smallest released entry not below the request
is preferred, then the largest released entry below it within the window, and
a fresh slot is allocated exactly when the window holds no released entry. -/
def request_window_spec (st : buffer_assigner_t) (s : Nat) : Prop :=
  (st.match_range_ = 0 →
    request st s = (some st.data_.length,
      { st with data_ := st.data_ ++ [⟨st.data_.length, s⟩] })) ∧
  (0 < st.match_range_ →
    ((∃ p ∈ st.free_, eligibleHigh s st.match_range_ p) →
      ∃ p ∈ st.free_, (request st s).1 = some p.2 ∧
        eligibleHigh s st.match_range_ p ∧
        ∀ q ∈ st.free_, eligibleHigh s st.match_range_ q → p.1 ≤ q.1) ∧
    ((¬ ∃ p ∈ st.free_, eligibleHigh s st.match_range_ p) →
      (∃ p ∈ st.free_, eligibleLow s st.match_range_ p) →
      ∃ p ∈ st.free_, (request st s).1 = some p.2 ∧
        eligibleLow s st.match_range_ p ∧
        ∀ q ∈ st.free_, eligibleLow s st.match_range_ q → q.1 ≤ p.1) ∧
    ((¬ ∃ p ∈ st.free_, eligibleHigh s st.match_range_ p) →
      (¬ ∃ p ∈ st.free_, eligibleLow s st.match_range_ p) →
      request st s = (some st.data_.length,
        { st with data_ := st.data_ ++ [⟨st.data_.length, s⟩] })))

/-- C1: for every `request(s)` with `s > 0` on an assigner with match range
`R`: if `R = 0` a fresh slot is allocated unconditionally; otherwise only
released slots whose recorded max size lies within `[s / R, s * R]` may be
returned, preferring the smallest eligible slot not smaller than `s`, then
the largest eligible slot smaller than `s`, and a fresh slot is allocated
only when the window contains no released slot. -/
theorem request_tolerance_window (st : buffer_assigner_t) (s : Nat)
    (hs : 0 < s) (hsort : sortedFree st.free_) :
    request_window_spec st s := by
  have hs0 : s ≠ 0 := by omega
  constructor
  · intro hR0
    rw [request_eq_alloc_of_range_zero st s hs0 hR0]
    simp [alloc]
  · intro hRpos
    have hR : st.match_range_ ≠ 0 := by omega
    have hse : s ≤ s * st.match_range_ := le_mul_match_range s st.match_range_ hR
    have hme0 : lower_bound st.free_ s ≤ upper_bound st.free_ (s * st.match_range_) :=
      lower_bound_le_upper_bound _ _ _ hse
    have hbm0 : lower_bound st.free_ (s / st.match_range_) ≤ lower_bound st.free_ s :=
      lower_bound_mono _ _ _ (Nat.div_le_self s st.match_range_)
    have hmlen : lower_bound st.free_ s ≤ st.free_.length := lower_bound_le_length _ _
    have helen : upper_bound st.free_ (s * st.match_range_) ≤ st.free_.length :=
      upper_bound_le_length _ _
    have idxHigh : ∀ q ∈ st.free_, eligibleHigh s st.match_range_ q →
        ∀ j, j < st.free_.length → st.free_.getD j (0, 0) = q →
        lower_bound st.free_ s ≤ j ∧
          j < upper_bound st.free_ (s * st.match_range_) := by
      rintro q hq ⟨hq1, hq2⟩ j hj hgd
      constructor
      · by_contra hc
        have := lt_lower_bound_key st.free_ s j (0, 0) (by omega)
        rw [hgd] at this; omega
      · by_contra hc
        have := lt_key_of_upper_bound_le st.free_ (s * st.match_range_) j (0, 0)
          hsort (by omega) hj
        rw [hgd] at this; omega
    have idxLow : ∀ q ∈ st.free_, eligibleLow s st.match_range_ q →
        ∀ j, j < st.free_.length → st.free_.getD j (0, 0) = q →
        lower_bound st.free_ (s / st.match_range_) ≤ j ∧
          j < lower_bound st.free_ s := by
      rintro q hq ⟨hq1, hq2⟩ j hj hgd
      constructor
      · by_contra hc
        have := lt_lower_bound_key st.free_ (s / st.match_range_) j (0, 0) (by omega)
        rw [hgd] at this; omega
      · by_contra hc
        have := le_key_of_lower_bound_le st.free_ s j (0, 0) hsort (by omega) hj
        rw [hgd] at this; omega
    refine ⟨?_, ?_, ?_⟩
    · rintro ⟨p, hp, hpe⟩
      obtain ⟨i, hi, hgd⟩ := exists_getD_of_mem st.free_ p (0, 0) hp
      obtain ⟨h1, h2⟩ := idxHigh p hp hpe i hi hgd
      have hmel : lower_bound st.free_ s <
          upper_bound st.free_ (s * st.match_range_) := by omega
      have hmlt : lower_bound st.free_ s < st.free_.length := by omega
      refine ⟨st.free_.getD (lower_bound st.free_ s) (0, 0),
        getD_mem _ _ _ hmlt, ?_, ⟨?_, ?_⟩, ?_⟩
      · rw [request_eq_reuse_high st s hs0 hR (by omega)]
      · exact le_key_of_lower_bound_le _ s _ (0, 0) hsort (Nat.le_refl _) hmlt
      · exact lt_upper_bound_key _ _ _ (0, 0) hmel
      · intro q hq hqe
        obtain ⟨j, hj, hjgd⟩ := exists_getD_of_mem st.free_ q (0, 0) hq
        obtain ⟨hj1, _⟩ := idxHigh q hq hqe j hj hjgd
        have := sorted_getD_mono st.free_ (lower_bound st.free_ s) j (0, 0)
          hsort hj1 hj
        rw [hjgd] at this
        exact this
    · intro hnohigh hlow
      obtain ⟨p, hp, hpe⟩ := hlow
      have hmeq : lower_bound st.free_ s =
          upper_bound st.free_ (s * st.match_range_) := by
        by_contra hne
        have hlt : lower_bound st.free_ s <
            upper_bound st.free_ (s * st.match_range_) := by omega
        have hmlt : lower_bound st.free_ s < st.free_.length := by omega
        exact hnohigh ⟨st.free_.getD (lower_bound st.free_ s) (0, 0),
          getD_mem _ _ _ hmlt,
          le_key_of_lower_bound_le _ s _ (0, 0) hsort (Nat.le_refl _) hmlt,
          lt_upper_bound_key _ _ _ (0, 0) hlt⟩
      obtain ⟨i, hi, hgd⟩ := exists_getD_of_mem st.free_ p (0, 0) hp
      obtain ⟨hb1, hb2⟩ := idxLow p hp hpe i hi hgd
      have hm1len : lower_bound st.free_ s - 1 < st.free_.length := by omega
      refine ⟨st.free_.getD (lower_bound st.free_ s - 1) (0, 0),
        getD_mem _ _ _ hm1len, ?_, ⟨?_, ?_⟩, ?_⟩
      · rw [request_eq_reuse_low st s hs0 hR hmeq (by omega)]
      · exact le_key_of_lower_bound_le _ (s / st.match_range_) _ (0, 0)
          hsort (by omega) hm1len
      · exact lt_lower_bound_key _ s _ (0, 0) (by omega)
      · intro q hq hqe
        obtain ⟨j, hj, hjgd⟩ := exists_getD_of_mem st.free_ q (0, 0) hq
        obtain ⟨_, hj2⟩ := idxLow q hq hqe j hj hjgd
        have := sorted_getD_mono st.free_ j (lower_bound st.free_ s - 1) (0, 0)
          hsort (by omega) hm1len
        rw [hjgd] at this
        exact this
    · intro hnohigh hnolow
      have hmeq : lower_bound st.free_ s =
          upper_bound st.free_ (s * st.match_range_) := by
        by_contra hne
        have hlt : lower_bound st.free_ s <
            upper_bound st.free_ (s * st.match_range_) := by omega
        have hmlt : lower_bound st.free_ s < st.free_.length := by omega
        exact hnohigh ⟨st.free_.getD (lower_bound st.free_ s) (0, 0),
          getD_mem _ _ _ hmlt,
          le_key_of_lower_bound_le _ s _ (0, 0) hsort (Nat.le_refl _) hmlt,
          lt_upper_bound_key _ _ _ (0, 0) hlt⟩
      have hmbq : lower_bound st.free_ s =
          lower_bound st.free_ (s / st.match_range_) := by
        by_contra hne
        have hm1len : lower_bound st.free_ s - 1 < st.free_.length := by omega
        exact hnolow ⟨st.free_.getD (lower_bound st.free_ s - 1) (0, 0),
          getD_mem _ _ _ hm1len,
          le_key_of_lower_bound_le _ (s / st.match_range_) _ (0, 0)
            hsort (by omega) hm1len,
          lt_lower_bound_key _ s _ (0, 0) (by omega)⟩
      rw [request_eq_fresh st s hs0 hR hmeq hmbq]
      simp [alloc]

/-- Witness for C1 at a concrete input: match range 16, one released slot of
recorded size 100, request of size 90. -/
theorem request_tolerance_window_witness :
    0 < 90 ∧ sortedFree ([(100, 0)] : List (Nat × Nat)) ∧
      request_window_spec ⟨16, [(100, 0)], [⟨0, 100⟩]⟩ 90 :=
  ⟨by decide, by decide,
    request_tolerance_window ⟨16, [(100, 0)], [⟨0, 100⟩]⟩ 90 (by decide) (by decide)⟩

/-! ### Claims C2, C5, C6, C7 -/

/-- C2: on a fresh assigner with match range 16, `request 100` returns id 0,
releasing it and requesting 90 returns id 0 again with recorded size still
100, a following `request 5000` returns the fresh id 1, and freshly allocated
ids are consecutive: `alloc` always returns the current length of `data_`
(so with two slots ever created and nothing free, the next request returns
id 2). -/
theorem request_reuse_scenario :
    (request ⟨16, [], []⟩ 100 = (some 0, ⟨16, [], [⟨0, 100⟩]⟩)) ∧
    (release ⟨16, [], [⟨0, 100⟩]⟩ (some 0) = some ⟨16, [(100, 0)], [⟨0, 100⟩]⟩) ∧
    (request ⟨16, [(100, 0)], [⟨0, 100⟩]⟩ 90 = (some 0, ⟨16, [], [⟨0, 100⟩]⟩)) ∧
    (query_size ⟨16, [], [⟨0, 100⟩]⟩ (some 0) = some 100) ∧
    ((request ⟨16, [], [⟨0, 100⟩]⟩ 5000).1 = some 1) ∧
    (∀ (st : buffer_assigner_t) (s : Nat),
      (alloc st s).1 = st.data_.length ∧
      (alloc st s).2.data_.length = st.data_.length + 1) ∧
    (∀ st : buffer_assigner_t, st.data_.length = 2 → st.free_ = [] →
      ∀ s : Nat, 0 < s → (request st s).1 = some 2) := by
  refine ⟨by decide, by decide, by decide, by decide, by decide, ?_, ?_⟩
  · intro st s
    exact ⟨rfl, by simp [alloc]⟩
  · intro st h2 hfree s hs
    rcases request_cases st s with ⟨h0, _⟩ | ⟨h1, _⟩ | ⟨j, hj, _⟩
    · omega
    · rw [h1, h2]
    · rw [hfree] at hj
      simp at hj

/-- Witness for the conditional part of C2: a state with two slots ever
created and an empty free list hands out id 2 next. -/
theorem request_reuse_scenario_witness :
    (⟨16, [], [⟨0, 100⟩, ⟨1, 5000⟩]⟩ : buffer_assigner_t).data_.length = 2 ∧
      (request ⟨16, [], [⟨0, 100⟩, ⟨1, 5000⟩]⟩ 7).1 = some 2 :=
  ⟨by decide,
    request_reuse_scenario.2.2.2.2.2.2 ⟨16, [], [⟨0, 100⟩, ⟨1, 5000⟩]⟩
      (by decide) (by decide) 7 (by decide)⟩

/-- C5: `request 0` returns the sentinel "no buffer" id without touching the
assigner's state, and `release` of the sentinel is a no-op that leaves the
free list and the slot vector unchanged. -/
theorem request_zero_sentinel (st : buffer_assigner_t) :
    request st 0 = (none, st) ∧ release st none = some st :=
  ⟨request_eq_sentinel st 0 rfl, rfl⟩

/-- C6: releasing a valid non-sentinel id inserts the slot into the free list
keyed by its current recorded `max_bytes_` (the accumulated maximum), not by
the size of the request that most recently obtained it. -/
theorem release_keyed_by_max_bytes (st : buffer_assigner_t) (i : Nat)
    (bi : buffer_info_t) (h : st.data_[i]? = some bi) :
    release st (some i) =
      some { st with free_ := mmInsert st.free_ (bi.max_bytes_, i) } := by
  simp [release, h]

/-- Witness for C6: the slot obtained by the size-90 reuse of C2 still has
recorded size 100, and releasing it keys the free list by 100, not 90. -/
theorem release_keyed_by_max_bytes_witness :
    (⟨16, [], [⟨0, 100⟩]⟩ : buffer_assigner_t).data_[0]? = some ⟨0, 100⟩ ∧
      release ⟨16, [], [⟨0, 100⟩]⟩ (some 0) =
        some ⟨16, [(100, 0)], [⟨0, 100⟩]⟩ :=
  ⟨by decide, release_keyed_by_max_bytes ⟨16, [], [⟨0, 100⟩]⟩ 0 ⟨0, 100⟩ (by decide)⟩

/-- C7: `release` and `query_size` on an id that is neither the sentinel nor
the id of any allocated slot fail the "invalid buffer id" assertion
(modelled as `none`); the sentinel is the only such id silently accepted. -/
theorem invalid_id_asserts (st : buffer_assigner_t) (i : Nat)
    (h : st.data_.length ≤ i) :
    release st (some i) = none ∧ query_size st (some i) = none ∧
    release st none = some st ∧ query_size st none = some 0 := by
  have hnone : st.data_[i]? = none := List.getElem?_eq_none h
  exact ⟨by simp [release, hnone], by simp [query_size, hnone], rfl, rfl⟩

/-- Witness for C7 at a concrete input: id 5 on an assigner with no slots. -/
theorem invalid_id_asserts_witness :
    (⟨16, [], []⟩ : buffer_assigner_t).data_.length ≤ 5 ∧
      (release ⟨16, [], []⟩ (some 5) = none ∧
        query_size ⟨16, [], []⟩ (some 5) = none ∧
        release ⟨16, [], []⟩ none = some ⟨16, [], []⟩ ∧
        query_size ⟨16, [], []⟩ none = some 0) :=
  ⟨by decide, invalid_id_asserts ⟨16, [], []⟩ 5 (by decide)⟩

/-! ### Supporting list lemmas for the trace invariant -/

theorem lt_length_of_getElem? {α : Type} :
    ∀ (l : List α) (i : Nat) (x : α), l[i]? = some x → i < l.length := by
  intro l
  induction l with
  | nil => intro i x h; simp at h
  | cons a rest ih =>
    intro i x h
    cases i with
    | zero => simp
    | succ j =>
      simp only [List.getElem?_cons_succ] at h
      have := ih j x h
      simpa using Nat.succ_lt_succ this

theorem getElem?_set_self {α : Type} :
    ∀ (l : List α) (i : Nat) (x : α), i < l.length → (l.set i x)[i]? = some x := by
  intro l
  induction l with
  | nil => intro i x h; simp at h
  | cons a rest ih =>
    intro i x h
    cases i with
    | zero => simp
    | succ j => simpa using ih j x (by simpa using h)

theorem getElem?_set_ne {α : Type} :
    ∀ (l : List α) (i : Nat) (x : α) (j : Nat), i ≠ j → (l.set i x)[j]? = l[j]? := by
  intro l
  induction l with
  | nil => intro i x j _; simp
  | cons a rest ih =>
    intro i x j hij
    cases i with
    | zero =>
      cases j with
      | zero => omega
      | succ j2 => simp
    | succ i2 =>
      cases j with
      | zero => simp
      | succ j2 => simpa using ih i2 x j2 (by omega)

theorem map_snd_eraseIdx :
    ∀ (l : List (Nat × Nat)) (i : Nat),
      (l.eraseIdx i).map Prod.snd = (l.map Prod.snd).eraseIdx i := by
  intro l
  induction l with
  | nil => intro i; simp
  | cons p rest ih =>
    intro i
    cases i with
    | zero => simp
    | succ j => simpa using ih j

theorem map_snd_getD :
    ∀ (l : List (Nat × Nat)) (j : Nat), j < l.length →
      (l.map Prod.snd).getD j 0 = (l.getD j (0, 0)).2 := by
  intro l
  induction l with
  | nil => intro j h; simp at h
  | cons p rest ih =>
    intro j h
    cases j with
    | zero => simp
    | succ j2 => simpa using ih j2 (by simpa using h)

theorem nodup_getD_not_mem_eraseIdx :
    ∀ (l : List Nat) (j : Nat) (d : Nat), l.Nodup → j < l.length →
      ¬ l.getD j d ∈ l.eraseIdx j := by
  intro l
  induction l with
  | nil => intro j d _ h; simp at h
  | cons a rest ih =>
    intro j d hnd hlen
    obtain ⟨hh, ht⟩ := List.nodup_cons.mp hnd
    cases j with
    | zero => simpa using hh
    | succ j2 =>
      simp only [List.getD_cons_succ, List.eraseIdx_cons_succ, List.mem_cons]
      push_neg
      refine ⟨?_, ih j2 d ht (by simpa using hlen)⟩
      intro he
      exact hh (he ▸ getD_mem rest j2 d (by simpa using hlen))

theorem mmInsert_perm (l : List (Nat × Nat)) (p : Nat × Nat) :
    (mmInsert l p).Perm (p :: l) := by
  induction l with
  | nil => simp [mmInsert]
  | cons q rest ih =>
    simp only [mmInsert]
    by_cases h : p.1 < q.1
    · rw [if_pos h]
    · rw [if_neg h]
      exact List.Perm.trans (List.Perm.cons q ih) (List.Perm.swap p q rest)

theorem updateMax_length (data : List buffer_info_t) (id s : Nat) :
    (updateMax data id s).length = data.length := by
  unfold updateMax
  split <;> simp

theorem updateMax_getElem?_mono (data : List buffer_info_t) (id s j : Nat)
    (bi : buffer_info_t) (h : data[j]? = some bi) :
    ∃ bi2, (updateMax data id s)[j]? = some bi2 ∧
      bi.max_bytes_ ≤ bi2.max_bytes_ := by
  unfold updateMax
  rcases hid : data[id]? with _ | bi0
  · exact ⟨bi, h, Nat.le_refl _⟩
  · by_cases hij : id = j
    · subst hij
      rw [h] at hid
      injection hid with he
      subst he
      exact ⟨⟨bi.id_, max s bi.max_bytes_⟩,
        getElem?_set_self _ _ _ (lt_length_of_getElem? _ _ _ h),
        Nat.le_max_right s bi.max_bytes_⟩
    · exact ⟨bi, by rw [getElem?_set_ne _ _ _ _ hij]; exact h, Nat.le_refl _⟩

theorem release_data_eq (st : buffer_assigner_t) (j : Nat)
    (st2 : buffer_assigner_t) (h : release st (some j) = some st2) :
    st2.data_ = st.data_ := by
  simp only [release] at h
  rcases hbi : st.data_[j]? with _ | bi <;> rw [hbi] at h
  · cases h
  · injection h with h2
    rw [← h2]

/-! ### Claim C3: traces of request/release calls -/

/-- A single call in a request/release trace. -/
inductive trace_op where
  | req : Nat → trace_op
  | rel : Option Nat → trace_op
deriving Repr, DecidableEq

/-- The ids currently sitting in the free list. -/
def freeIds (st : buffer_assigner_t) : List Nat := st.free_.map Prod.snd

/-- Assigner state together with the ghost bookkeeping of a trace: the live
(requested, not yet released) ids, every id ever returned, every id ever
released, a running check `reuseOk` that each returned id was fresh or
previously released, and a well-formedness flag `wf` that each release passed
a currently live id. -/
structure trace_state where
  asg : buffer_assigner_t
  live : List Nat
  everReturned : List Nat
  everReleased : List Nat
  reuseOk : Bool
  wf : Bool
deriving Repr, DecidableEq

/-- One step of a trace. -/
def stepTrace (ts : trace_state) (o : trace_op) : trace_state :=
  match o with
  | trace_op.req s =>
    match (request ts.asg s).1 with
    | none => { ts with asg := (request ts.asg s).2 }
    | some id =>
      { ts with
        asg := (request ts.asg s).2
        live := id :: ts.live
        everReturned := id :: ts.everReturned
        reuseOk := ts.reuseOk &&
          (decide (¬ id ∈ ts.everReturned) || decide (id ∈ ts.everReleased)) }
  | trace_op.rel none => { ts with wf := false }
  | trace_op.rel (some i) =>
    match release ts.asg (some i) with
    | some asg2 =>
      { ts with
        asg := asg2
        live := ts.live.erase i
        everReleased := i :: ts.everReleased
        wf := ts.wf && decide (i ∈ ts.live) }
    | none => { ts with wf := ts.wf && decide (i ∈ ts.live) }

/-- A fresh assigner with match range `R` and empty ghost state. -/
def initTrace (R : Nat) : trace_state :=
  ⟨⟨R, [], []⟩, [], [], [], true, true⟩

/-- Run a whole trace. -/
def runTrace (R : Nat) (ops : List trace_op) : trace_state :=
  ops.foldl stepTrace (initTrace R)

/-- The inductive invariant of well-formed traces. -/
def traceInv (ts : trace_state) : Prop :=
  ts.live.Nodup ∧
  (freeIds ts.asg).Nodup ∧
  (∀ i ∈ freeIds ts.asg, ¬ i ∈ ts.live) ∧
  (∀ i ∈ freeIds ts.asg, i < ts.asg.data_.length) ∧
  (∀ i ∈ ts.live, i < ts.asg.data_.length) ∧
  (∀ i ∈ ts.everReturned, i < ts.asg.data_.length) ∧
  (∀ i ∈ freeIds ts.asg, i ∈ ts.everReleased)

/-- Well-formed traces keep the invariant and the `reuseOk` check. -/
def traceGood (ts : trace_state) : Prop :=
  ts.wf = true → (traceInv ts ∧ ts.reuseOk = true)

/-- One trace step preserves `traceGood`. -/
theorem stepTrace_good (ts : trace_state) (o : trace_op)
    (h : traceGood ts) : traceGood (stepTrace ts o) := by
  cases o with
  | req s =>
    rcases hreq : (request ts.asg s).1 with _ | id
    · have h2 : (request ts.asg s).2 = ts.asg := by
        rcases request_cases ts.asg s with ⟨_, heq⟩ | ⟨h1, _⟩ | ⟨j, hj, h1, _⟩
        · rw [heq]
        · rw [hreq] at h1; simp at h1
        · rw [hreq] at h1; simp at h1
      simp only [stepTrace, hreq, h2]
      exact h
    · simp only [stepTrace, hreq]
      intro hwf
      have hwf2 : ts.wf = true := hwf
      obtain ⟨⟨hln, hfn, hfl, hfb, hlb, hrb, hfr⟩, hok⟩ := h hwf2
      rcases request_cases ts.asg s with ⟨_, heq⟩ | ⟨h1, h2⟩ | ⟨j, hj, h1, h2⟩
      · rw [heq] at hreq; simp at hreq
      · -- fresh allocation: id is the next consecutive id
        rw [hreq] at h1
        injection h1 with hid
        rw [h2]
        refine ⟨⟨?_, ?_, ?_, ?_, ?_, ?_, ?_⟩, ?_⟩
        · refine List.nodup_cons.mpr ⟨fun hm => ?_, hln⟩
          have := hlb id hm; omega
        · exact hfn
        · intro k hk
          have hk2 : k ∈ freeIds ts.asg := hk
          intro hmem
          rcases List.mem_cons.mp hmem with he | hm
          · have := hfb k hk2; omega
          · exact hfl k hk2 hm
        · intro k hk
          have hk2 : k ∈ freeIds ts.asg := hk
          have := hfb k hk2
          simp only [List.length_append, List.length_cons, List.length_nil]
          omega
        · intro k hk
          rcases List.mem_cons.mp hk with he | hm
          · simp only [List.length_append, List.length_cons, List.length_nil]
            omega
          · have := hlb k hm
            simp only [List.length_append, List.length_cons, List.length_nil]
            omega
        · intro k hk
          rcases List.mem_cons.mp hk with he | hm
          · simp only [List.length_append, List.length_cons, List.length_nil]
            omega
          · have := hrb k hm
            simp only [List.length_append, List.length_cons, List.length_nil]
            omega
        · intro k hk
          exact hfr k hk
        · have hnm : ¬ id ∈ ts.everReturned := fun hm => by
            have := hrb id hm; omega
          rw [hok, Bool.true_and]
          simp [hnm]
      · -- reuse of a released slot
        rw [hreq] at h1
        injection h1 with hid
        rw [h2]
        have hidmem : id ∈ freeIds ts.asg := by
          rw [hid]
          exact List.mem_map_of_mem Prod.snd (getD_mem _ _ _ hj)
        have hjlen : j < (freeIds ts.asg).length := by
          simpa [freeIds] using hj
        have hgd : (freeIds ts.asg).getD j 0 = id := by
          rw [hid]
          exact map_snd_getD ts.asg.free_ j hj
        have hidnot : ¬ id ∈ (freeIds ts.asg).eraseIdx j := by
          have h0 := nodup_getD_not_mem_eraseIdx (freeIds ts.asg) j 0 hfn hjlen
          rw [hgd] at h0
          exact h0
        have hfree2 :
            freeIds { ts.asg with
              free_ := ts.asg.free_.eraseIdx j
              data_ := updateMax ts.asg.data_ (ts.asg.free_.getD j (0, 0)).2 s } =
              (freeIds ts.asg).eraseIdx j :=
          map_snd_eraseIdx ts.asg.free_ j
        have hlen2 :
            (updateMax ts.asg.data_ (ts.asg.free_.getD j (0, 0)).2 s).length =
              ts.asg.data_.length :=
          updateMax_length _ _ _
        refine ⟨⟨?_, ?_, ?_, ?_, ?_, ?_, ?_⟩, ?_⟩
        · exact List.nodup_cons.mpr ⟨hfl id hidmem, hln⟩
        · rw [hfree2]
          exact List.Nodup.sublist (List.eraseIdx_sublist _ _) hfn
        · intro k hk
          have hk2 : k ∈ (freeIds ts.asg).eraseIdx j := hfree2 ▸ hk
          have hk3 : k ∈ freeIds ts.asg := (List.eraseIdx_sublist _ _).subset hk2
          intro hmem
          rcases List.mem_cons.mp hmem with he | hm
          · exact hidnot (he ▸ hk2)
          · exact hfl k hk3 hm
        · intro k hk
          have hk2 : k ∈ (freeIds ts.asg).eraseIdx j := hfree2 ▸ hk
          have hk3 : k ∈ freeIds ts.asg := (List.eraseIdx_sublist _ _).subset hk2
          have := hfb k hk3
          simp only [hlen2]
          omega
        · intro k hk
          rcases List.mem_cons.mp hk with he | hm
          · have := hfb id hidmem
            simp only [hlen2]
            omega
          · have := hlb k hm
            simp only [hlen2]
            omega
        · intro k hk
          rcases List.mem_cons.mp hk with he | hm
          · have := hfb id hidmem
            simp only [hlen2]
            omega
          · have := hrb k hm
            simp only [hlen2]
            omega
        · intro k hk
          have hk2 : k ∈ (freeIds ts.asg).eraseIdx j := hfree2 ▸ hk
          exact hfr k ((List.eraseIdx_sublist _ _).subset hk2)
        · have hrel : id ∈ ts.everReleased := hfr id hidmem
          rw [hok, Bool.true_and]
          simp [hrel]
  | rel oid =>
    cases oid with
    | none =>
      simp only [stepTrace]
      intro hwf
      simp at hwf
    | some i =>
      rcases hrel : release ts.asg (some i) with _ | asg2
      · simp only [stepTrace, hrel]
        intro hwf
        have hw2 : (ts.wf && decide (i ∈ ts.live)) = true := hwf
        rw [Bool.and_eq_true] at hw2
        obtain ⟨hw, hd⟩ := hw2
        have hil : i ∈ ts.live := of_decide_eq_true hd
        obtain ⟨⟨hln, hfn, hfl, hfb, hlb, hrb, hfr⟩, hok⟩ := h hw
        have hlt : i < ts.asg.data_.length := hlb i hil
        have hbi := List.getElem?_eq_getElem hlt
        rw [release_keyed_by_max_bytes ts.asg i _ hbi] at hrel
        simp at hrel
      · simp only [stepTrace, hrel]
        intro hwf
        have hw2 : (ts.wf && decide (i ∈ ts.live)) = true := hwf
        rw [Bool.and_eq_true] at hw2
        obtain ⟨hw, hd⟩ := hw2
        have hil : i ∈ ts.live := of_decide_eq_true hd
        obtain ⟨⟨hln, hfn, hfl, hfb, hlb, hrb, hfr⟩, hok⟩ := h hw
        have hlt : i < ts.asg.data_.length := hlb i hil
        have hbi := List.getElem?_eq_getElem hlt
        have hchar := release_keyed_by_max_bytes ts.asg i _ hbi
        rw [hrel] at hchar
        injection hchar with hasg2
        have hinotfree : ¬ i ∈ freeIds ts.asg := fun hm => hfl i hm hil
        have hperm : (freeIds asg2).Perm (i :: freeIds ts.asg) := by
          rw [hasg2]
          exact (mmInsert_perm ts.asg.free_ _).map Prod.snd
        have hmem2 : ∀ k, k ∈ freeIds asg2 → k = i ∨ k ∈ freeIds ts.asg := by
          intro k hk
          have := hperm.mem_iff.mp hk
          simpa using this
        have hdata2 : asg2.data_ = ts.asg.data_ := release_data_eq ts.asg i asg2 hrel
        refine ⟨⟨?_, ?_, ?_, ?_, ?_, ?_, ?_⟩, ?_⟩
        · exact hln.erase i
        · refine hperm.nodup_iff.mpr ?_
          exact List.nodup_cons.mpr ⟨hinotfree, hfn⟩
        · intro k hk
          intro hmem
          have hk2 := hmem2 k hk
          have hkl : k ∈ ts.live := List.mem_of_mem_erase hmem
          rcases hk2 with he | hm
          · subst he
            exact (List.Nodup.not_mem_erase hln) hmem
          · exact hfl k hm hkl
        · intro k hk
          rw [hdata2]
          rcases hmem2 k hk with he | hm
          · omega
          · exact hfb k hm
        · intro k hk
          rw [hdata2]
          exact hlb k (List.mem_of_mem_erase hk)
        · intro k hk
          rw [hdata2]
          exact hrb k hk
        · intro k hk
          rcases hmem2 k hk with he | hm
          · subst he
            exact List.mem_cons_self _ _
          · exact List.mem_cons_of_mem _ (hfr k hm)
        · exact hok

/-- Folding a trace preserves `traceGood`. -/
theorem foldl_stepTrace_good (ops : List trace_op) :
    ∀ ts : trace_state, traceGood ts → traceGood (ops.foldl stepTrace ts) := by
  induction ops with
  | nil => intro ts h; exact h
  | cons o rest ih =>
    intro ts h
    exact ih _ (stepTrace_good ts o h)

/-- C3: over every well-formed trace of request/release calls (each release
passes a currently live id), every non-sentinel id handed out by `request`
was either never returned before (fresh) or previously released (`reuseOk`),
and no two simultaneously live requests hold the same id (`live.Nodup`). -/
theorem request_release_no_double_live (R : Nat) (ops : List trace_op)
    (hwf : (runTrace R ops).wf = true) :
    (runTrace R ops).reuseOk = true ∧ (runTrace R ops).live.Nodup := by
  have h0 : traceGood (initTrace R) := by
    intro _
    refine ⟨⟨?_, ?_, ?_, ?_, ?_, ?_, ?_⟩, rfl⟩ <;> simp [initTrace, freeIds]
  obtain ⟨inv, hok⟩ := foldl_stepTrace_good ops (initTrace R) h0 hwf
  exact ⟨hok, inv.1⟩

/-- Witness for C3: the concrete trace of C2 is well formed and satisfies the
conclusion. -/
theorem request_release_no_double_live_witness :
    (runTrace 16 [trace_op.req 100, trace_op.rel (some 0), trace_op.req 90,
        trace_op.rel (some 0), trace_op.req 5000]).wf = true ∧
      ((runTrace 16 [trace_op.req 100, trace_op.rel (some 0), trace_op.req 90,
          trace_op.rel (some 0), trace_op.req 5000]).reuseOk = true ∧
        (runTrace 16 [trace_op.req 100, trace_op.rel (some 0), trace_op.req 90,
          trace_op.rel (some 0), trace_op.req 5000]).live.Nodup) :=
  ⟨by decide,
    request_release_no_double_live 16
      [trace_op.req 100, trace_op.rel (some 0), trace_op.req 90,
        trace_op.rel (some 0), trace_op.req 5000] (by decide)⟩

/-! ### Claim C4: recorded sizes never shrink -/

/-- `request` never decreases a recorded slot size. -/
theorem request_size_le (st : buffer_assigner_t) (s i v : Nat)
    (h : query_size st (some i) = some v) :
    ∃ v2, query_size ((request st s).2) (some i) = some v2 ∧ v ≤ v2 := by
  simp only [query_size] at h
  rcases hbi : st.data_[i]? with _ | bi <;> rw [hbi] at h
  · cases h
  · injection h with hv
    have hlt : i < st.data_.length := lt_length_of_getElem? _ _ _ hbi
    rcases request_cases st s with ⟨_, heq⟩ | ⟨_, h2⟩ | ⟨j, hj, _, h2⟩
    · rw [heq]
      exact ⟨v, by simp [query_size, hbi, hv], Nat.le_refl v⟩
    · rw [h2]
      refine ⟨v, ?_, Nat.le_refl v⟩
      simp only [query_size]
      rw [List.getElem?_append, if_pos hlt, hbi]
      simp [hv]
    · rw [h2]
      obtain ⟨bi2, hbi2, hle⟩ :=
        updateMax_getElem?_mono st.data_ (st.free_.getD j (0, 0)).2 s i bi hbi
      refine ⟨bi2.max_bytes_, ?_, ?_⟩
      · simp only [query_size]
        rw [hbi2]
      · omega

/-- One trace step never decreases a recorded slot size. -/
theorem stepTrace_size_le (ts : trace_state) (o : trace_op) (i v : Nat)
    (h : query_size ts.asg (some i) = some v) :
    ∃ v2, query_size ((stepTrace ts o).asg) (some i) = some v2 ∧ v ≤ v2 := by
  cases o with
  | req s =>
    rcases hreq : (request ts.asg s).1 with _ | id <;>
      simp only [stepTrace, hreq] <;>
      exact request_size_le ts.asg s i v h
  | rel oid =>
    cases oid with
    | none =>
      simp only [stepTrace]
      exact ⟨v, h, Nat.le_refl v⟩
    | some k =>
      rcases hrel : release ts.asg (some k) with _ | asg2
      · simp only [stepTrace, hrel]
        exact ⟨v, h, Nat.le_refl v⟩
      · simp only [stepTrace, hrel]
        have hdata := release_data_eq ts.asg k asg2 hrel
        refine ⟨v, ?_, Nat.le_refl v⟩
        simp only [query_size, hdata]
        simp only [query_size] at h
        exact h

/-- C4: `query_size` is non-decreasing for every slot over any sequence of
request/release operations, and a reuse of a released slot by `request s`
sets the recorded maximum to `max s current`, so sizes only grow. -/
theorem query_size_monotone :
    (∀ (ops : List trace_op) (ts : trace_state) (i v : Nat),
      query_size ts.asg (some i) = some v →
      ∃ v2, query_size ((ops.foldl stepTrace ts).asg) (some i) = some v2 ∧
        v ≤ v2) ∧
    (∀ (st : buffer_assigner_t) (s id : Nat) (bi : buffer_info_t),
      (request st s).1 = some id → st.data_[id]? = some bi →
      query_size ((request st s).2) (some id) = some (max s bi.max_bytes_)) := by
  constructor
  · intro ops
    induction ops with
    | nil => intro ts i v h; exact ⟨v, h, Nat.le_refl v⟩
    | cons o rest ih =>
      intro ts i v h
      obtain ⟨v1, h1, hv1⟩ := stepTrace_size_le ts o i v h
      obtain ⟨v2, h2, hv2⟩ := ih (stepTrace ts o) i v1 h1
      exact ⟨v2, h2, Nat.le_trans hv1 hv2⟩
  · intro st s id bi h1 hbi
    have hlt : id < st.data_.length := lt_length_of_getElem? _ _ _ hbi
    rcases request_cases st s with ⟨_, heq⟩ | ⟨ha, _⟩ | ⟨j, hj, ha, h2⟩
    · rw [heq] at h1; simp at h1
    · rw [h1] at ha
      injection ha with he
      omega
    · rw [h1] at ha
      injection ha with he
      rw [h2, ← he]
      simp only [query_size]
      have hset : (updateMax st.data_ id s)[id]? =
          some ⟨bi.id_, max s bi.max_bytes_⟩ := by
        unfold updateMax
        rw [hbi]
        exact getElem?_set_self _ _ _ hlt
      rw [hset]

/-- Witness for C4: after one reuse step of size 90 the recorded size of slot
0 (previously 100) has not decreased. -/
theorem query_size_monotone_witness :
    query_size (⟨16, [(100, 0)], [⟨0, 100⟩]⟩ : buffer_assigner_t) (some 0) =
        some 100 ∧
      ∃ v2, query_size (([trace_op.req 90].foldl stepTrace
          ⟨⟨16, [(100, 0)], [⟨0, 100⟩]⟩, [], [], [], true, true⟩).asg)
          (some 0) = some v2 ∧ 100 ≤ v2 :=
  ⟨by decide,
    query_size_monotone.1 [trace_op.req 90]
      ⟨⟨16, [(100, 0)], [⟨0, 100⟩]⟩, [], [], [], true, true⟩ 0 100 (by decide)⟩

/-! ### Claims C9, C10: `memory_planner_t::get_memory_info` -/

/-- The buffer kinds of `memory_planner_t::buffer_kind_t`. -/
inductive buffer_kind_t where
  | external_input
  | external_output
  | internal_temporary
  | internal_persistent
deriving Repr, DecidableEq

/-- `memory_planner_t::assign_info_t`: the kind and index assigned to a
value. -/
structure assign_info_t where
  kind_ : buffer_kind_t
  index_ : Nat
deriving Repr, DecidableEq

/-- The part of the `memory_planner_t` state read by `get_memory_info`: the
`buffer_assignments_` map, with the `const value_t *` keys modelled as
natural-number value identities and the unordered map as an association
list. -/
structure memory_planner_t where
  buffer_assignments_ : List (Nat × assign_info_t)
deriving Repr, DecidableEq

/-- `unordered_map::find` on the modelled assignment map. -/
def findAssign : List (Nat × assign_info_t) → Nat → Option assign_info_t
  | [], _ => none
  | p :: rest, v => if p.1 = v then some p.2 else findAssign rest v

/-- `memory_planner_t::get_memory_info`: the empty string when the value has
no recorded assignment (the early return before anything is appended),
otherwise the kind's tag followed by the decimal index.  The source method is
`const`; the embedding is accordingly a pure function of the planner. -/
def get_memory_info (pl : memory_planner_t) (val : Nat) : String :=
  match findAssign pl.buffer_assignments_ val with
  | none => ""
  | some info =>
    (if info.kind_ = buffer_kind_t.internal_persistent then "persistent_"
     else if info.kind_ = buffer_kind_t.internal_temporary then "temporary_"
     else if info.kind_ = buffer_kind_t.external_input then "external_in_"
     else if info.kind_ = buffer_kind_t.external_output then "external_out_"
     else "") ++ toString info.index_

/-- C9: every value with an assigned (kind, index) pair gets exactly one of
the four documented strings, with the tag matching its kind and the number
its index. -/
theorem get_memory_info_forms (pl : memory_planner_t) (val : Nat)
    (info : assign_info_t)
    (h : findAssign pl.buffer_assignments_ val = some info) :
    (info.kind_ = buffer_kind_t.internal_persistent ∧
      get_memory_info pl val = "persistent_" ++ toString info.index_) ∨
    (info.kind_ = buffer_kind_t.internal_temporary ∧
      get_memory_info pl val = "temporary_" ++ toString info.index_) ∨
    (info.kind_ = buffer_kind_t.external_input ∧
      get_memory_info pl val = "external_in_" ++ toString info.index_) ∨
    (info.kind_ = buffer_kind_t.external_output ∧
      get_memory_info pl val = "external_out_" ++ toString info.index_) := by
  have hg : get_memory_info pl val =
      (if info.kind_ = buffer_kind_t.internal_persistent then "persistent_"
       else if info.kind_ = buffer_kind_t.internal_temporary then "temporary_"
       else if info.kind_ = buffer_kind_t.external_input then "external_in_"
       else if info.kind_ = buffer_kind_t.external_output then "external_out_"
       else "") ++ toString info.index_ := by
    simp [get_memory_info, h]
  cases hk : info.kind_ with
  | external_input =>
    exact Or.inr (Or.inr (Or.inl ⟨rfl, by simp [hg, hk]⟩))
  | external_output =>
    exact Or.inr (Or.inr (Or.inr ⟨rfl, by simp [hg, hk]⟩))
  | internal_temporary =>
    exact Or.inr (Or.inl ⟨rfl, by simp [hg, hk]⟩)
  | internal_persistent =>
    exact Or.inl ⟨rfl, by simp [hg, hk]⟩

/-- Witness for C9: a value assigned (internal_temporary, 3) yields
"temporary_3". -/
theorem get_memory_info_forms_witness :
    findAssign [(4, ⟨buffer_kind_t.internal_temporary, 3⟩)] 4 =
        some ⟨buffer_kind_t.internal_temporary, 3⟩ ∧
      (((⟨buffer_kind_t.internal_temporary, 3⟩ : assign_info_t).kind_ =
            buffer_kind_t.internal_persistent ∧
          get_memory_info ⟨[(4, ⟨buffer_kind_t.internal_temporary, 3⟩)]⟩ 4 =
            "persistent_" ++ toString
              (⟨buffer_kind_t.internal_temporary, 3⟩ : assign_info_t).index_) ∨
        ((⟨buffer_kind_t.internal_temporary, 3⟩ : assign_info_t).kind_ =
            buffer_kind_t.internal_temporary ∧
          get_memory_info ⟨[(4, ⟨buffer_kind_t.internal_temporary, 3⟩)]⟩ 4 =
            "temporary_" ++ toString
              (⟨buffer_kind_t.internal_temporary, 3⟩ : assign_info_t).index_) ∨
        ((⟨buffer_kind_t.internal_temporary, 3⟩ : assign_info_t).kind_ =
            buffer_kind_t.external_input ∧
          get_memory_info ⟨[(4, ⟨buffer_kind_t.internal_temporary, 3⟩)]⟩ 4 =
            "external_in_" ++ toString
              (⟨buffer_kind_t.internal_temporary, 3⟩ : assign_info_t).index_) ∨
        ((⟨buffer_kind_t.internal_temporary, 3⟩ : assign_info_t).kind_ =
            buffer_kind_t.external_output ∧
          get_memory_info ⟨[(4, ⟨buffer_kind_t.internal_temporary, 3⟩)]⟩ 4 =
            "external_out_" ++ toString
              (⟨buffer_kind_t.internal_temporary, 3⟩ : assign_info_t).index_)) :=
  ⟨by decide,
    get_memory_info_forms ⟨[(4, ⟨buffer_kind_t.internal_temporary, 3⟩)]⟩ 4
      ⟨buffer_kind_t.internal_temporary, 3⟩ (by decide)⟩

/-- C10: a value with no recorded buffer assignment gets the empty string,
none of the four documented forms; `get_memory_info` is a pure (`const`)
function of the planner, so the state is untouched. -/
theorem get_memory_info_unassigned (pl : memory_planner_t) (val : Nat)
    (h : findAssign pl.buffer_assignments_ val = none) :
    get_memory_info pl val = "" := by
  simp [get_memory_info, h]

/-- Witness for C10: a value absent from the assignment map. -/
theorem get_memory_info_unassigned_witness :
    findAssign [(4, ⟨buffer_kind_t.external_input, 0⟩)] 7 = none ∧
      get_memory_info ⟨[(4, ⟨buffer_kind_t.external_input, 0⟩)]⟩ 7 = "" :=
  ⟨by decide,
    get_memory_info_unassigned ⟨[(4, ⟨buffer_kind_t.external_input, 0⟩)]⟩ 7
      (by decide)⟩

/-! ### Claim C8: `execution_args_set_t::clone` -/

/-- `execution_args_set_t` with the `dnnl::memory` handles modelled as
abstract natural-number identities: the four memory-usage lists pair a handle
with an external index or an internal offset key, `value_mem_map_` maps
value identities to handles, and `topo_ordered_exec_args_` is the
topologically ordered per-operation list of (argument role, handle)
bindings. -/
structure execution_args_set_t where
  mems_use_external_inputs_ : List (Nat × Nat)
  mems_use_external_outputs_ : List (Nat × Nat)
  mems_use_internal_temporary_ : List (Nat × Nat)
  mems_use_internal_persistent_ : List (Nat × Nat)
  value_mem_map_ : List (Nat × Nat)
  topo_ordered_exec_args_ : List (List (Nat × Nat))
deriving Repr, DecidableEq

/-- Every memory handle bound anywhere in the set. -/
def memHandles (a : execution_args_set_t) : List Nat :=
  a.mems_use_external_inputs_.map Prod.fst ++
  a.mems_use_external_outputs_.map Prod.fst ++
  a.mems_use_internal_temporary_.map Prod.fst ++
  a.mems_use_internal_persistent_.map Prod.fst ++
  a.value_mem_map_.map Prod.snd ++
  (a.topo_ordered_exec_args_.map (fun l => l.map Prod.snd)).flatten

/-- Modelled from the spec: `execution_args_set_t::clone` is declared in
memory_planning.hpp (line 57, comment "Deep copy") but its body is in
memory_planning.cpp, which is not among the excerpted sources.  Following
section 4.5 of the design document, `clone` performs a deep copy suitable for
concurrent, independent execution: the binding structure — ordered argument
roles, external indices and internal offset keys — is identical, while every
concrete memory handle is replaced by an independently owned one.  The
handle replacement is modelled by a renaming function `rho`. -/
def clone (a : execution_args_set_t) (rho : Nat → Nat) : execution_args_set_t :=
  { mems_use_external_inputs_ :=
      a.mems_use_external_inputs_.map (fun p => (rho p.1, p.2))
    mems_use_external_outputs_ :=
      a.mems_use_external_outputs_.map (fun p => (rho p.1, p.2))
    mems_use_internal_temporary_ :=
      a.mems_use_internal_temporary_.map (fun p => (rho p.1, p.2))
    mems_use_internal_persistent_ :=
      a.mems_use_internal_persistent_.map (fun p => (rho p.1, p.2))
    value_mem_map_ := a.value_mem_map_.map (fun p => (p.1, rho p.2))
    topo_ordered_exec_args_ :=
      a.topo_ordered_exec_args_.map (fun l => l.map (fun p => (p.1, rho p.2))) }

theorem map_fst_rename_handle (rho : Nat → Nat) :
    ∀ l : List (Nat × Nat),
      (l.map (fun p => (rho p.1, p.2))).map Prod.fst =
        (l.map Prod.fst).map rho := by
  intro l
  induction l with
  | nil => simp
  | cons p rest ih => simp [ih]

theorem map_snd_keep_handle (rho : Nat → Nat) :
    ∀ l : List (Nat × Nat),
      (l.map (fun p => (rho p.1, p.2))).map Prod.snd = l.map Prod.snd := by
  intro l
  induction l with
  | nil => simp
  | cons p rest ih => simp [ih]

theorem map_snd_rename_handle (rho : Nat → Nat) :
    ∀ l : List (Nat × Nat),
      (l.map (fun p => (p.1, rho p.2))).map Prod.snd =
        (l.map Prod.snd).map rho := by
  intro l
  induction l with
  | nil => simp
  | cons p rest ih => simp [ih]

theorem map_fst_keep_handle (rho : Nat → Nat) :
    ∀ l : List (Nat × Nat),
      (l.map (fun p => (p.1, rho p.2))).map Prod.fst = l.map Prod.fst := by
  intro l
  induction l with
  | nil => simp
  | cons p rest ih => simp [ih]

theorem join_rename_handle (rho : Nat → Nat) :
    ∀ L : List (List (Nat × Nat)),
      ((L.map (fun l => l.map (fun p => (p.1, rho p.2)))).map
          (fun l => l.map Prod.snd)).flatten =
        ((L.map (fun l => l.map Prod.snd)).flatten).map rho := by
  intro L
  induction L with
  | nil => simp
  | cons hd tl ih =>
    simp only [List.map_cons, List.flatten_cons, List.map_append]
    rw [map_snd_rename_handle, ih]

theorem topo_roles_rename (rho : Nat → Nat) :
    ∀ L : List (List (Nat × Nat)),
      (L.map (fun l => l.map (fun p => (p.1, rho p.2)))).map
          (fun l => l.map Prod.fst) =
        L.map (fun l => l.map Prod.fst) := by
  intro L
  induction L with
  | nil => simp
  | cons hd tl ih =>
    simp only [List.map_cons]
    rw [map_fst_keep_handle, ih]

/-- The handles of a clone are exactly the renamed handles of the
original. -/
theorem clone_memHandles (a : execution_args_set_t) (rho : Nat → Nat) :
    memHandles (clone a rho) = (memHandles a).map rho := by
  obtain ⟨l1, l2, l3, l4, l5, l6⟩ := a
  simp only [memHandles, clone, List.map_append]
  rw [map_fst_rename_handle, map_fst_rename_handle, map_fst_rename_handle,
    map_fst_rename_handle, map_snd_rename_handle, join_rename_handle]

/-- C8: `clone` keeps the binding structure identical — the ordered argument
roles of every operation, the number and order of operations, the external
indices and internal offset keys, and the value identities — while, whenever
the renaming sends every original handle outside the original's handle set,
no handle of the clone aliases a handle of the original. -/
theorem clone_deep_copy (a : execution_args_set_t) (rho : Nat → Nat) :
    ((clone a rho).topo_ordered_exec_args_.map (fun l => l.map Prod.fst) =
        a.topo_ordered_exec_args_.map (fun l => l.map Prod.fst) ∧
      (clone a rho).topo_ordered_exec_args_.length =
        a.topo_ordered_exec_args_.length ∧
      (clone a rho).mems_use_external_inputs_.map Prod.snd =
        a.mems_use_external_inputs_.map Prod.snd ∧
      (clone a rho).mems_use_external_outputs_.map Prod.snd =
        a.mems_use_external_outputs_.map Prod.snd ∧
      (clone a rho).mems_use_internal_temporary_.map Prod.snd =
        a.mems_use_internal_temporary_.map Prod.snd ∧
      (clone a rho).mems_use_internal_persistent_.map Prod.snd =
        a.mems_use_internal_persistent_.map Prod.snd ∧
      (clone a rho).value_mem_map_.map Prod.fst =
        a.value_mem_map_.map Prod.fst) ∧
    ((∀ h0 ∈ memHandles a, ¬ rho h0 ∈ memHandles a) →
      ∀ h0 ∈ memHandles (clone a rho), ¬ h0 ∈ memHandles a) := by
  constructor
  · refine ⟨?_, ?_, ?_, ?_, ?_, ?_, ?_⟩
    · exact topo_roles_rename rho a.topo_ordered_exec_args_
    · simp [clone]
    · exact map_snd_keep_handle rho a.mems_use_external_inputs_
    · exact map_snd_keep_handle rho a.mems_use_external_outputs_
    · exact map_snd_keep_handle rho a.mems_use_internal_temporary_
    · exact map_snd_keep_handle rho a.mems_use_internal_persistent_
    · exact map_fst_keep_handle rho a.value_mem_map_
  · intro hdisj h0 hmem
    rw [clone_memHandles] at hmem
    obtain ⟨h1, hh1, he⟩ := List.mem_map.mp hmem
    exact fun hc => hdisj h1 hh1 (he ▸ hc)

/-- Witness for C8: a concrete argument set and the renaming that shifts
every handle by 10, which lands outside the original's handle set. -/
theorem clone_deep_copy_witness :
    (∀ h0 ∈ memHandles ⟨[(1, 0)], [], [], [(2, 5)], [(7, 1)],
        [[(0, 1), (1, 2)]]⟩, ¬ (h0 + 10) ∈ memHandles ⟨[(1, 0)], [], [],
        [(2, 5)], [(7, 1)], [[(0, 1), (1, 2)]]⟩) ∧
      (∀ h0 ∈ memHandles (clone ⟨[(1, 0)], [], [], [(2, 5)], [(7, 1)],
          [[(0, 1), (1, 2)]]⟩ (fun h => h + 10)),
        ¬ h0 ∈ memHandles ⟨[(1, 0)], [], [], [(2, 5)], [(7, 1)],
          [[(0, 1), (1, 2)]]⟩) :=
  ⟨by decide,
    (clone_deep_copy ⟨[(1, 0)], [], [], [(2, 5)], [(7, 1)],
      [[(0, 1), (1, 2)]]⟩ (fun h => h + 10)).2 (by decide)⟩

end dnnl_impl
